import Mathlib

/-!
xflag: positional arguments and extra flag values.

A shallow embedding of `pos.go` and of the value adapters of `flag.go`.

Go strings are modelled by `String`; the markers the code looks for
(`[`, `]`, `...`, ` `, `-`) are ASCII, so working on characters instead of
UTF-8 bytes does not change any result.  A Go `error` is an `Option String`
holding the message, `none` being `nil`.  A `map[string]bool` that only ever
stores `true` is the list of its keys, without duplicates.
-/

namespace Xflag

/-! ## The `strings` functions used by `pos.go` -/

/-- Go `strings.HasPrefix`. -/
def HasPrefix (s pre : String) : Bool := pre.data.isPrefixOf s.data

/-- Go `strings.HasSuffix`. -/
def HasSuffix (s suf : String) : Bool := suf.data.isSuffixOf s.data

/-- Go `strings.TrimPrefix`: `s` without the leading `pre`, or `s` itself. -/
def TrimPrefix (s pre : String) : String :=
  if HasPrefix s pre then String.mk (s.data.drop pre.data.length) else s

/-- Go `strings.TrimSuffix`: `s` without the trailing `suf`, or `s` itself. -/
def TrimSuffix (s suf : String) : String :=
  if HasSuffix s suf then String.mk (s.data.take (s.data.length - suf.data.length)) else s

/-- Go `strings.Split` for a one-character separator, the only way `pos.go`
calls it (`strings.Split(usage, " ")`). -/
def Split (s : String) (sep : Char) : List String :=
  (s.data.splitOn sep).map String.mk

/-- Go `strings.Join`. -/
def Join (elems : List String) (sep : String) : String :=
  String.mk (sep.data.intercalate (elems.map String.data))

/-! ## The host flag set -/

/-- The order on strings used by `sort` in the Go `flag` package: `a <= b`
byte-wise, which for UTF-8 text is the lexicographic order on code points. -/
def nameLE (a b : String) : Prop := a.data ≤ b.data

instance : DecidableRel nameLE := fun a b => inferInstanceAs (Decidable (a.data ≤ b.data))

instance : IsTotal String nameLE := ⟨fun a b => le_total a.data b.data⟩

instance : IsTrans String nameLE := ⟨fun _ _ _ h1 h2 => le_trans h1 h2⟩

/-- Go `flag.FlagSet.VisitAll`, as far as the names handed to the callback go:
"VisitAll visits the flags in lexicographical order".  The argument is the list
of names registered on the flag set; the result is the sequence of `f.Name`
seen by the callback. -/
def VisitAll (formal : List String) : List String :=
  List.insertionSort nameLE formal

/-! ## `Positional` -/

/-- The struct `Positional`.  Of the embedded `*FlagSet` only the names of the
registered flags matter to `pos.go`; they are kept in `flags`, in the order of
registration. -/
structure Positional where
  flags : List String
  order : List String
  require : List String
  set : List String
  deriving DecidableEq

/-- Method `Positional.Order`: `p.order = strings.Split(usage, " ")`. -/
def Positional.Order (p : Positional) (usage : String) : Positional :=
  { p with order := Split usage ' ' }

/-- Method `Positional.isOptional`. -/
def isOptional (p : Positional) (i : Nat) : Bool :=
  if i ≥ p.order.length then true
  else HasPrefix (p.order.getD i "") "[" && HasSuffix (p.order.getD i "") "]"

/-- Method `Positional.isRepeating`. -/
def isRepeating (p : Positional) (i : Nat) : Bool :=
  if i ≥ p.order.length then true
  else
    let s := TrimSuffix (p.order.getD i "") "]"
    HasSuffix s "..."

/-- Method `Positional.clean`. -/
def clean (p : Positional) (i : Nat) : String :=
  if i ≥ p.order.length then ""
  else
    let s := TrimPrefix (p.order.getD i "") "["
    let s := TrimSuffix s "]"
    TrimSuffix s "..."

/-- The assignment `m[k] = true` on a map that holds only `true`. -/
def mapSet (m : List String) (k : String) : List String :=
  if k ∈ m then m else m ++ [k]

/-- The loop `for i := range p.order` of `ensure`, run over the indices `is`
with the map `p.require` built so far in `req`. -/
def requireLoop (p : Positional) : List Nat → List String → List String
  | [], req => req
  | i :: is, req =>
    requireLoop p is (if !isOptional p i then mapSet req (clean p i) else req)

/-- Method `Positional.ensure`. -/
def ensure (p : Positional) : Positional :=
  let p1 : Positional :=
    if p.order.length = 0 then { p with order := [] ++ VisitAll p.flags } else p
  { p1 with
    require := requireLoop p1 (List.range p1.order.length) []
    set := [] }

/-- The loop `for j, v := range values` of `interleave`: `n` is `len(values)`,
the first list the values not yet visited, `j` the index of its head, `i` the
cursor and `args` the slice built so far.  The two `len(...)-1` are computed on
`Int`, as Go computes them on `int`. -/
def interleaveLoop (p : Positional) (n : Nat) :
    List String → Nat → Nat → List String → List String
  | [], _, _, args => args
  | v :: vs, j, i, args =>
    let args1 := if i < p.order.length then args ++ ["-" ++ clean p i] else args
    let args2 := args1 ++ [v]
    let i1 :=
      if (j : Int) = (n : Int) - 1 ∧ (i : Int) = (p.order.length : Int) - 1 then i + 1
      else if !isRepeating p i then i + 1
      else i
    interleaveLoop p n vs (j + 1) i1 args2

/-- Method `Positional.interleave`: the receiver after the call and the
returned slice. -/
def interleave (p : Positional) (values : List String) : Positional × List String :=
  let p1 := ensure p
  (p1, interleaveLoop p1 values.length values 0 0 [])

/-- Function `Pos`: a fresh `Positional` over an empty flag set. -/
def Pos : Positional := { flags := [], order := [], require := [], set := [] }

/-- Registration of a flag named `name` on the embedded flag set
(`p.Var(value, name, usage)` and the wrappers built on it). -/
def Positional.Var (p : Positional) (name : String) : Positional :=
  { p with flags := p.flags ++ [name] }

/-- What the loop of `interleave` appends for one value while the cursor is `i`. -/
def emitAt (p : Positional) (i : Nat) (v : String) : List String :=
  if i < p.order.length then ["-" ++ clean p i, v] else [v]

/-! ## `Positional.Parse` and its host -/

/-- What `Positional.Parse` gets from the embedded Go flag set for one argument
list: the error of `p.FlagSet.FlagSet.Parse(args)`, or else the flag names that
`p.Visit` passes to its callback afterwards. -/
abbrev Host := List String → Except String (List String)

/-- Method `Positional.failf`, as far as its result goes: the error built by
`fmt.Errorf`.  Printing it and calling `p.Usage` are not modelled (`Usage` is
taken to be set, as `FlagSet.Parse` sets it). -/
def failf (msg : String) : Option String := some msg

/-- The loop `for r, _ := range p.require` of `Parse`, over the keys in the
order in which the range statement yields them. -/
def rangeRequire (set : List String) : List String → Option String
  | [] => none
  | r :: rs =>
    if !(decide (r ∈ set)) then failf ("required but not set: " ++ r)
    else rangeRequire set rs

/-- Method `Positional.Parse`.  Go does not specify the order in which a range
statement visits the keys of a map; `keys` is the order of this run, a
permutation of the keys of `p.require`. -/
def Parse (p : Positional) (host : Host) (keys : List String) (args : List String) :
    Positional × Option String :=
  let (p1, stream) := interleave p args
  match host stream with
  | .error err => (p1, some err)
  | .ok visited =>
    let p2 : Positional := { p1 with set := visited.foldl mapSet p1.set }
    (p2, rangeRequire p2.set keys)

/-- The result of one round of `parseOne`. -/
inductive ParseStep where
  | done
  | fail (err : String)
  | seen (name : String) (rest : List String)
  deriving DecidableEq

/-- The cut of `name` at its first `=` at index 1 or later (the loop over
`name[i] == '='` of `parseOne`): the name, and whether a value followed. -/
def cutValue : List Char → List Char × Bool
  | [] => ([], false)
  | c :: cs =>
    match cs.span (fun d => d != '=') with
    | (pre, []) => (c :: pre, false)
    | (pre, _ :: _) => (c :: pre, true)

/-- Go `flag.FlagSet.parseOne` on a flag set whose flags, named `formal`, are not
boolean and accept every value. -/
def parseOne (formal : List String) : List String → ParseStep
  | [] => .done
  | s :: rest =>
    if s.data.length < 2 ∨ s.data.head? ≠ some '-' then .done
    else
      let numMinuses := if s.data[1]? = some '-' then 2 else 1
      if numMinuses = 2 ∧ s.data.length = 2 then .done
      else
        let name := s.data.drop numMinuses
        if name.length = 0 ∨ name.head? = some '-' ∨ name.head? = some '=' then
          .fail ("bad flag syntax: " ++ s)
        else
          let (nm, hasValue) := cutValue name
          if String.mk nm ∉ formal then
            if String.mk nm = "help" ∨ String.mk nm = "h" then .fail "flag: help requested"
            else .fail ("flag provided but not defined: -" ++ String.mk nm)
          else if hasValue then .seen (String.mk nm) rest
          else
            match rest with
            | [] => .fail ("flag needs an argument: -" ++ String.mk nm)
            | _ :: rest1 => .seen (String.mk nm) rest1

/-- The loop of Go `flag.FlagSet.Parse`: rounds of `parseOne` until it stops;
`actual` collects the names of the flags that were set.  The first argument
bounds the number of rounds. -/
def parseLoop (formal : List String) : Nat → List String → List String →
    Except String (List String)
  | 0, _, _ => .error "parseLoop: more rounds than arguments"
  | fuel + 1, args, actual =>
    match parseOne formal args with
    | .done => .ok actual
    | .fail err => .error err
    | .seen name rest => parseLoop formal fuel rest (mapSet actual name)

/-- A host for `Positional.Parse`: Go `flag.FlagSet.Parse` followed by `Visit`
(which, like `VisitAll`, goes in lexicographical order), on a fresh flag set with
the flags `formal`.  Every round of `parseOne` that goes on consumes an
argument, so the loop stops within `args.length + 1` rounds. -/
def flagParse (formal : List String) : Host := fun args =>
  match parseLoop formal (args.length + 1) args [] with
  | .error err => .error err
  | .ok actual => .ok (VisitAll actual)

/-! ## The flag values of `flag.go` -/

/-- The calls `Set(v)` that the flag package makes on one flag value, one for
each value given to the flag, in order: the final state and the errors. -/
def setAll {σ : Type} (set : σ → String → σ × Option String) : σ → List String →
    σ × List (Option String)
  | s, [] => (s, [])
  | s, v :: vs =>
    let r := set s v
    let rest := setAll set r.1 vs
    (rest.1, r.2 :: rest.2)

/-- The struct `bufferValue`: the content of the `bytes.Buffer` it points to. -/
structure bufferValue where
  Buffer : String
  deriving DecidableEq

/-- Method `bufferValue.Set`: `b.WriteString(arg + "\n")`, whose error is
always nil. -/
def bufferValue.Set (b : bufferValue) (arg : String) : bufferValue × Option String :=
  ({ Buffer := b.Buffer ++ (arg ++ "\n") }, none)

/-- The value of the flag defined by `FlagSet.Buffer`, over the buffer
`bytes.NewBuffer([]byte{})` that the method returns. -/
def newBuffer : bufferValue := { Buffer := "" }

/-- The struct `stringsValue`: the slice that `p` points to, `none` being the
nil slice. -/
structure stringsValue where
  p : Option (List String)
  deriving DecidableEq

/-- Go `append(s, x)` on a slice of strings. -/
def goAppend : Option (List String) → String → Option (List String)
  | none, x => some [x]
  | some l, x => some (l ++ [x])

/-- Method `stringsValue.Set`. -/
def stringsValue.Set (s : stringsValue) (arg : String) : stringsValue × Option String :=
  ({ p := goAppend s.p arg }, none)

/-- The value of the flag defined by `FlagSet.Strings`, over the slice
`ss := []string{}` whose address the method returns. -/
def newStrings : stringsValue := { p := some [] }

/-- The values an `io.ReadCloser` takes in `flag.go`. -/
inductive ReadCloser where
  /-- The reader `ioutil.NopCloser(os.Stdin)`. -/
  | stdin
  /-- The `*os.File` of a successful `os.Open(name)`. -/
  | file (name : String)
  /-- The nil `*os.File` that a failed `os.Open` returns. -/
  | nilFile
  /-- A `*InFileValue`, by its address. -/
  | inFileValue (addr : Nat)
  deriving DecidableEq

/-- The struct `InFileValue`: its embedded `io.ReadCloser`, `none` being nil. -/
structure InFileValue where
  ReadCloser : Option ReadCloser
  deriving DecidableEq

/-- A `FlagSet`, as far as input file flags go: the `InFileValue` structs
allocated so far, an address being an index in `heap`, and for each registered
flag its name and the address of its value. -/
structure FlagSet where
  heap : List InFileValue
  formal : List (String × Nat)
  deriving DecidableEq

/-- Function `inOrStdin`.  `osOpen name` is the error of `os.Open(name)`, `none`
when the file opens. -/
def inOrStdin (osOpen : String → Option String) (arg : String) :
    ReadCloser × Option String :=
  if arg = "-" then (.stdin, none)
  else
    match osOpen arg with
    | none => (.file arg, none)
    | some err => (.nilFile, some err)

/-- Method `InFileValue.Set`, on the struct at address `i`. -/
def InFileValue.Set (osOpen : String → Option String) (f : FlagSet) (i : Nat) (arg : String) :
    FlagSet × Option String :=
  let r := inOrStdin osOpen arg
  ({ f with heap := f.heap.set i { ReadCloser := some r.1 } }, r.2)

/-- What a call of `Read` or `Close` on an `InFileValue` does. -/
inductive Delegation where
  /-- The receiver holds nil: `Read` returns `0, io.EOF`, `Close` returns nil. -/
  | none
  /-- The call is passed on to the reader the receiver holds. -/
  | to (r : ReadCloser)
  deriving DecidableEq

/-- Method `InFileValue.Read`, on the struct at address `i`. -/
def InFileValue.Read (f : FlagSet) (i : Nat) : Delegation :=
  match (f.heap.getD i { ReadCloser := none }).ReadCloser with
  | none => .none
  | some r => .to r

/-- Method `InFileValue.Close`, on the struct at address `i`. -/
def InFileValue.Close (f : FlagSet) (i : Nat) : Delegation :=
  match (f.heap.getD i { ReadCloser := none }).ReadCloser with
  | none => .none
  | some r => .to r

/-- Method `FlagSet.InFileVar`: `f.Var(&InFileValue{p}, name, usage)` allocates
a new struct holding `p` and registers it as the value of the flag. -/
def FlagSet.InFileVar (f : FlagSet) (p : Nat) (name : String) : FlagSet :=
  { heap := f.heap ++ [{ ReadCloser := some (.inFileValue p) }]
    formal := f.formal ++ [(name, f.heap.length)] }

/-- Method `FlagSet.InFile`: the flag set afterwards and the returned `r`. -/
def FlagSet.InFile (f : FlagSet) (name : String) : FlagSet × Nat :=
  let r := f.heap.length
  let f1 : FlagSet := { f with heap := f.heap ++ [{ ReadCloser := none }] }
  (f1.InFileVar r name, r)

/-- The flag package setting the flag `name` to `arg`: `Set(arg)` on the value
registered under that name. -/
def FlagSet.setFlag (osOpen : String → Option String) (f : FlagSet) (name arg : String) :
    FlagSet × Option String :=
  match f.formal.lookup name with
  | none => (f, some ("flag provided but not defined: -" ++ name))
  | some v => InFileValue.Set osOpen f v arg

/-! ## Theorems -/

/-! ### The cursor of `interleave` -/

theorem interleaveLoop_stay (p : Positional) (n r : Nat) (hrep : isRepeating p r = true) :
    ∀ (vs : List String) (j : Nat) (args : List String), j + vs.length = n →
      interleaveLoop p n vs j r args = args ++ (vs.map (emitAt p r)).flatten := by
  intro vs
  induction vs with
  | nil => intro j args _; simp [interleaveLoop]
  | cons v vs ih =>
    intro j args hj
    cases vs with
    | nil =>
      by_cases hlen : r < p.order.length <;> simp [interleaveLoop, emitAt, hlen]
    | cons w ws =>
      have hne : ¬ ((j : Int) = (n : Int) - 1 ∧ (r : Int) = (p.order.length : Int) - 1) := by
        simp only [List.length_cons] at hj
        omega
      rw [interleaveLoop]
      simp only [hne, hrep, if_false, Bool.not_true, Bool.false_eq_true]
      rw [ih (j + 1) _ (by simp only [List.length_cons] at hj ⊢; omega)]
      by_cases hlen : r < p.order.length <;> simp [emitAt, hlen]

theorem interleaveLoop_advance (p : Positional) (n r : Nat) (hr : r ≤ p.order.length)
    (hrep : isRepeating p r = true) :
    ∀ (vs : List String) (j i : Nat) (args : List String), j + vs.length = n → i ≤ r →
      (∀ k, i ≤ k → k < r → isRepeating p k = false) →
      interleaveLoop p n vs j i args =
        args ++ (List.zipWith (fun k v => ["-" ++ clean p k, v]) (List.range' i (r - i)) vs).flatten
          ++ ((vs.drop (r - i)).map (emitAt p r)).flatten := by
  intro vs
  induction vs with
  | nil => intro j i args _ _ _; simp [interleaveLoop]
  | cons v vs ih =>
    intro j i args hj hi hk
    rcases Nat.eq_or_lt_of_le hi with heq | hlt
    · subst heq
      rw [interleaveLoop_stay p n i hrep (v :: vs) j args hj]
      simp
    · have hnr : isRepeating p i = false := hk i (le_refl i) hlt
      have hlen : i < p.order.length := by omega
      rw [interleaveLoop]
      simp only [hnr, hlen, if_true, Bool.not_false, ite_self]
      rw [ih (j + 1) (i + 1) _ (by simp only [List.length_cons] at hj; omega) (by omega)
        (fun k h1 h2 => hk k (by omega) h2)]
      obtain ⟨d, hd⟩ : ∃ d, r - i = d + 1 := ⟨r - i - 1, by omega⟩
      have hd2 : r - (i + 1) = d := by omega
      rw [hd, hd2]
      simp [List.range'_succ]

theorem ensure_order_of_template (p : Positional) (h : p.order ≠ []) :
    (ensure p).order = p.order := by
  have : p.order.length ≠ 0 := by simpa using h
  simp [ensure, this]

theorem isRepeating_length (p : Positional) : isRepeating p p.order.length = true := by
  simp [isRepeating]

theorem flatten_map_emitAt_length (p : Positional) (vs : List String) :
    (vs.map (emitAt p p.order.length)).flatten = vs := by
  induction vs with
  | nil => rfl
  | cons v vs ih => rw [List.map_cons, List.flatten_cons, ih]; simp [emitAt]

/-- C1: when no slot of the order in effect is repeating, `interleave` pairs
token `j` with the marker `"-" + clean(j)` for every `j` below both the number
of slots and the number of tokens, in order, and then emits the tokens from
index `len(p.order)` on bare; with as many tokens as slots the stream is exactly
the marker/token pairs. -/
theorem interleave_required_slots (p : Positional) (values : List String)
    (h : ∀ i, i < (ensure p).order.length → isRepeating (ensure p) i = false) :
    (interleave p values).2 =
        (List.zipWith (fun i v => ["-" ++ clean (ensure p) i, v])
          (List.range (ensure p).order.length) values).flatten
          ++ values.drop (ensure p).order.length
      ∧ (values.length = (ensure p).order.length →
          (interleave p values).2 =
            (List.zipWith (fun i v => ["-" ++ clean (ensure p) i, v])
              (List.range (ensure p).order.length) values).flatten) := by
  have key := interleaveLoop_advance (ensure p) values.length (ensure p).order.length
    (le_refl _) (isRepeating_length _) values 0 0 [] (by simp) (Nat.zero_le _)
    (fun k _ hk => h k hk)
  simp only [Nat.sub_zero, List.nil_append, flatten_map_emitAt_length] at key
  rw [← List.range_eq_range'] at key
  refine ⟨key, fun hlen => ?_⟩
  have hdrop : values.drop (ensure p).order.length = [] := by
    rw [← hlen]; exact List.drop_length values
  simpa [interleave, hdrop] using key

theorem interleave_required_slots_witness :
    (interleave (Pos.Order "src dst") ["x", "y"]).2 = ["-src", "x", "-dst", "y"]
      ∧ (interleave (Pos.Order "src dst") ["x", "y", "z"]).2 = ["-src", "x", "-dst", "y", "z"]
      ∧ (interleave (Pos.Order "src dst") ["x"]).2 = ["-src", "x"] :=
  ⟨((interleave_required_slots (Pos.Order "src dst") ["x", "y"] (by decide)).2 (by decide)).trans
      (by decide),
    (interleave_required_slots (Pos.Order "src dst") ["x", "y", "z"] (by decide)).1.trans
      (by decide),
    (interleave_required_slots (Pos.Order "src dst") ["x"] (by decide)).1.trans (by decide)⟩

/-- C2: when the first repeating slot of the order in effect is slot `r`,
`interleave` pairs token `j` with the marker of slot `j` for `j < r` and pairs
every token `j >= r` with the marker `"-" + clean(r)`. -/
theorem interleave_repeating_slot (p : Positional) (values : List String) (r : Nat)
    (hr : r < (ensure p).order.length)
    (hrep : isRepeating (ensure p) r = true)
    (hfirst : ∀ i, i < r → isRepeating (ensure p) i = false) :
    (interleave p values).2 =
      (List.zipWith (fun i v => ["-" ++ clean (ensure p) i, v]) (List.range r) values).flatten
        ++ ((values.drop r).map (fun v => ["-" ++ clean (ensure p) r, v])).flatten := by
  have key := interleaveLoop_advance (ensure p) values.length r (Nat.le_of_lt hr) hrep
    values 0 0 [] (by simp) (Nat.zero_le _) (fun k _ hk => hfirst k hk)
  simp only [Nat.sub_zero, List.nil_append] at key
  rw [← List.range_eq_range'] at key
  have hemit : emitAt (ensure p) r = fun v => ["-" ++ clean (ensure p) r, v] := by
    funext v; simp [emitAt, hr]
  rw [hemit] at key
  exact key

theorem interleave_repeating_slot_witness :
    (interleave (Pos.Order "a [b...]") ["x", "y", "z"]).2 = ["-a", "x", "-b", "y", "-b", "z"]
      ∧ (interleave (Pos.Order "a...") ["x", "y", "z"]).2 = ["-a", "x", "-a", "y", "-a", "z"]
      ∧ (interleave (Pos.Order "a [b...]") ["x"]).2 = ["-a", "x"] :=
  ⟨(interleave_repeating_slot (Pos.Order "a [b...]") ["x", "y", "z"] 1 (by decide) (by decide)
      (by decide)).trans (by decide),
    (interleave_repeating_slot (Pos.Order "a...") ["x", "y", "z"] 0 (by decide) (by decide)
      (by decide)).trans (by decide),
    (interleave_repeating_slot (Pos.Order "a [b...]") ["x"] 1 (by decide) (by decide)
      (by decide)).trans (by decide)⟩

/-! ### Slot classification -/

theorem hasSuffix_iff (s suf : String) : HasSuffix s suf = true ↔ suf.data <:+ s.data := by
  simp [HasSuffix, List.isSuffixOf_iff_suffix]

theorem hasPrefix_iff (s pre : String) : HasPrefix s pre = true ↔ pre.data <+: s.data := by
  simp [HasPrefix, List.isPrefixOf_iff_prefix]

/-- A suffix that does not start with `c` survives the removal of a leading `c`. -/
theorem suffix_cons_of_head_ne {c : Char} {suf l : List Char}
    (hne : ∀ d ∈ suf.head?, d ≠ c) (hsuf : suf ≠ []) :
    suf <:+ c :: l ↔ suf <:+ l := by
  rw [List.suffix_cons_iff]
  constructor
  · rintro (h | h)
    · cases suf with
      | nil => exact absurd rfl hsuf
      | cons d ds =>
        have := hne d (by simp)
        simp_all
    · exact h
  · exact Or.inr

theorem hasSuffix_bracket (suf : String) (l : List Char)
    (hne : ∀ d ∈ suf.data.head?, d ≠ '[') (hsuf : suf.data ≠ []) :
    HasSuffix (String.mk ('[' :: l)) suf = HasSuffix (String.mk l) suf := by
  rw [Bool.eq_iff_iff, hasSuffix_iff, hasSuffix_iff]
  exact suffix_cons_of_head_ne hne hsuf

theorem trimSuffix_bracket (l : List Char) :
    (TrimSuffix (String.mk ('[' :: l)) "]").data
      = '[' :: (TrimSuffix (String.mk l) "]").data := by
  have hb := hasSuffix_bracket "]" l (by decide) (by decide)
  unfold TrimSuffix
  rw [hb]
  by_cases h : HasSuffix (String.mk l) "]" = true
  · have hl : l ≠ [] := by
      rintro rfl
      revert h; decide
    obtain ⟨n, hn⟩ : ∃ n, l.length = n + 1 := ⟨l.length - 1, by
      have := List.length_pos.mpr hl; omega⟩
    simp [h, hn]
  · simp [h]

theorem isRepeating_stripped (t : String) :
    HasSuffix (TrimSuffix t "]") "..." = HasSuffix (TrimSuffix (TrimPrefix t "[") "]") "..." := by
  by_cases hp : HasPrefix t "[" = true
  · obtain ⟨l, hl⟩ : ∃ l, t.data = '[' :: l := by
      rw [hasPrefix_iff] at hp
      obtain ⟨l, hl⟩ := hp
      exact ⟨l, hl.symm⟩
    have ht : t = String.mk ('[' :: l) := by rw [← hl]
    have htp : TrimPrefix t "[" = String.mk l := by
      simp [TrimPrefix, hp, hl]
    rw [htp, ht]
    have h := trimSuffix_bracket l
    have := hasSuffix_bracket "..." (TrimSuffix (String.mk l) "]").data (by decide) (by decide)
    rw [← h] at this
    exact this
  · simp [TrimPrefix, hp]

/-- C6: for a template token `t` at a declared index `i`, `isOptional(i)` is
"`t` starts with `[` and ends with `]`", `isRepeating(i)` is "stripped ends with
`...`" and `clean(i)` is stripped without one trailing `...`, where stripped is
`t` without one leading `[` and one trailing `]`. -/
theorem slot_classification (p : Positional) (i : Nat) (t : String)
    (ht : p.order[i]? = some t) :
    isOptional p i = (HasPrefix t "[" && HasSuffix t "]")
      ∧ isRepeating p i = HasSuffix (TrimSuffix (TrimPrefix t "[") "]") "..."
      ∧ clean p i = TrimSuffix (TrimSuffix (TrimPrefix t "[") "]") "..." := by
  have hi : i < p.order.length := by
    rcases List.getElem?_eq_some_iff.mp ht with ⟨h, _⟩
    exact h
  have hget : p.order.getD i "" = t := by
    simp [List.getD_eq_getElem?_getD, ht]
  have hnot : ¬ i ≥ p.order.length := by omega
  refine ⟨?_, ?_, ?_⟩
  · simp only [isOptional, hnot, if_false, hget]
  · simp only [isRepeating, hnot, if_false, hget]
    exact isRepeating_stripped t
  · simp only [clean, hnot, if_false, hget]

theorem slot_classification_witness :
    (isOptional (Pos.Order "name [name] name... [name...]") 0 = false
        ∧ isRepeating (Pos.Order "name [name] name... [name...]") 0 = false
        ∧ clean (Pos.Order "name [name] name... [name...]") 0 = "name")
      ∧ (isOptional (Pos.Order "name [name] name... [name...]") 1 = true
        ∧ isRepeating (Pos.Order "name [name] name... [name...]") 1 = false
        ∧ clean (Pos.Order "name [name] name... [name...]") 1 = "name")
      ∧ (isOptional (Pos.Order "name [name] name... [name...]") 2 = false
        ∧ isRepeating (Pos.Order "name [name] name... [name...]") 2 = true
        ∧ clean (Pos.Order "name [name] name... [name...]") 2 = "name")
      ∧ (isOptional (Pos.Order "name [name] name... [name...]") 3 = true
        ∧ isRepeating (Pos.Order "name [name] name... [name...]") 3 = true
        ∧ clean (Pos.Order "name [name] name... [name...]") 3 = "name") := by
  have h0 := slot_classification (Pos.Order "name [name] name... [name...]") 0 "name" (by decide)
  have h1 := slot_classification (Pos.Order "name [name] name... [name...]") 1 "[name]" (by decide)
  have h2 := slot_classification (Pos.Order "name [name] name... [name...]") 2 "name..." (by decide)
  have h3 := slot_classification (Pos.Order "name [name] name... [name...]") 3 "[name...]"
    (by decide)
  exact ⟨⟨h0.1.trans (by decide), h0.2.1.trans (by decide), h0.2.2.trans (by decide)⟩,
    ⟨h1.1.trans (by decide), h1.2.1.trans (by decide), h1.2.2.trans (by decide)⟩,
    ⟨h2.1.trans (by decide), h2.2.1.trans (by decide), h2.2.2.trans (by decide)⟩,
    ⟨h3.1.trans (by decide), h3.2.1.trans (by decide), h3.2.2.trans (by decide)⟩⟩

/-! ### `Order` -/

theorem splitOn_length (sep : Char) (l : List Char) :
    (l.splitOn sep).length = l.count sep + 1 := by
  induction l with
  | nil => simp [List.splitOn_nil]
  | cons c cs ih =>
    unfold List.splitOn at ih ⊢
    rw [List.splitOnP_cons]
    by_cases h : c = sep
    · subst h
      simp [ih]
    · have h2 : (c == sep) = false := by simpa using h
      simp [h2, ih, List.count_cons]

theorem splitOn_no_sep (sep : Char) (l : List Char) :
    ∀ piece ∈ l.splitOn sep, sep ∉ piece := by
  induction l with
  | nil => simp [List.splitOn_nil]
  | cons c cs ih =>
    unfold List.splitOn at ih ⊢
    rw [List.splitOnP_cons]
    by_cases h : c = sep
    · subst h
      simpa using ih
    · have h2 : (c == sep) = false := by simpa using h
      simp only [h2, Bool.false_eq_true, if_false]
      cases hs : List.splitOnP (fun x => x == sep) cs with
      | nil => simp
      | cons a as =>
        rw [hs] at ih
        intro piece hp
        simp only [List.modifyHead_cons, List.mem_cons] at hp
        rcases hp with rfl | hp
        · have := ih a (by simp)
          simp only [List.mem_cons, not_or]
          exact ⟨fun e => h e.symm, this⟩
        · exact ih piece (by simp [hp])

/-- C7, the counterexample: two spaces between `a` and `b` give three slots, the
middle one with the empty name; a tab does not separate; spaces at the ends add
empty slots. -/
theorem Order_whitespace_counterexample :
    (Pos.Order "a  b").order = ["a", "", "b"]
      ∧ clean (Pos.Order "a  b") 1 = ""
      ∧ (Pos.Order "a\tb").order = ["a\tb"]
      ∧ (Pos.Order " a b ").order = ["", "a", "b", ""]
      ∧ (Pos.Order "a b").order = ["a", "b"] := by
  decide

/-- C7, as amended: `Order` cuts the template at every single space character,
so there is one slot more than there are spaces, no slot contains a space, and
joining the slots with single spaces gives the template back. -/
theorem Order_splits_on_each_space (p : Positional) (usage : String) :
    (p.Order usage).order.length = usage.data.count ' ' + 1
      ∧ (∀ t ∈ (p.Order usage).order, ' ' ∉ t.data)
      ∧ Join (p.Order usage).order " " = usage := by
  refine ⟨?_, ?_, ?_⟩
  · simp [Positional.Order, Split, splitOn_length]
  · intro t ht
    simp only [Positional.Order, Split, List.mem_map] at ht
    obtain ⟨piece, hp, rfl⟩ := ht
    exact splitOn_no_sep ' ' usage.data piece hp
  · simp only [Positional.Order, Split, Join, List.map_map]
    have : (String.data ∘ String.mk) = id := by funext l; rfl
    rw [this, List.map_id]
    have h : [' '].intercalate (usage.data.splitOn ' ') = usage.data :=
      List.intercalate_splitOn usage.data ' '
    show String.mk ([' '].intercalate (usage.data.splitOn ' ')) = usage
    rw [h]

/-! ### `Parse` -/

theorem mem_mapSet (m : List String) (k x : String) : x ∈ mapSet m k ↔ x ∈ m ∨ x = k := by
  unfold mapSet
  by_cases h : k ∈ m
  · simp only [h, if_true]
    constructor
    · exact Or.inl
    · rintro (hx | rfl)
      · exact hx
      · exact h
  · simp [h]

theorem mem_foldl_mapSet (ks : List String) :
    ∀ (m : List String) (x : String), x ∈ ks.foldl mapSet m ↔ x ∈ m ∨ x ∈ ks := by
  induction ks with
  | nil => intro m x; simp
  | cons k ks ih =>
    intro m x
    rw [List.foldl_cons, ih, mem_mapSet]
    simp only [List.mem_cons]
    tauto

theorem mem_requireLoop (p : Positional) (is : List Nat) :
    ∀ (req : List String) (x : String),
      x ∈ requireLoop p is req ↔
        x ∈ req ∨ ∃ i, i ∈ is ∧ isOptional p i = false ∧ clean p i = x := by
  induction is with
  | nil => intro req x; simp [requireLoop]
  | cons i is ih =>
    intro req x
    rw [requireLoop, ih]
    by_cases hopt : isOptional p i = true
    · simp only [hopt, Bool.not_true, Bool.false_eq_true, if_false, List.mem_cons]
      constructor
      · rintro (h | ⟨k, hk, h1, h2⟩)
        · exact Or.inl h
        · exact Or.inr ⟨k, Or.inr hk, h1, h2⟩
      · rintro (h | ⟨k, hk | hk, h1, h2⟩)
        · exact Or.inl h
        · subst hk; rw [hopt] at h1; exact absurd h1 (by decide)
        · exact Or.inr ⟨k, hk, h1, h2⟩
    · have hopt2 : isOptional p i = false := by simpa using hopt
      simp only [hopt2, Bool.not_false, if_true, mem_mapSet, List.mem_cons]
      constructor
      · rintro ((h | h) | ⟨k, hk, h1, h2⟩)
        · exact Or.inl h
        · exact Or.inr ⟨i, Or.inl rfl, hopt2, h.symm⟩
        · exact Or.inr ⟨k, Or.inr hk, h1, h2⟩
      · rintro (h | ⟨k, hk | hk, h1, h2⟩)
        · exact Or.inl (Or.inl h)
        · subst hk; exact Or.inl (Or.inr h2.symm)
        · exact Or.inr ⟨k, hk, h1, h2⟩

/-- The keys of `p.require` after `ensure`: the clean names of the slots that
are not optional. -/
theorem mem_require_ensure (p : Positional) (x : String) :
    x ∈ (ensure p).require ↔
      ∃ i, i < (ensure p).order.length ∧ isOptional (ensure p) i = false
        ∧ clean (ensure p) i = x := by
  by_cases h : p.order.length = 0
  · simp only [ensure, h, if_true]
    rw [mem_requireLoop]
    simp [isOptional, clean]
  · simp only [ensure, h, if_false]
    rw [mem_requireLoop]
    simp [isOptional, clean]

theorem rangeRequire_eq_none (set keys : List String) :
    rangeRequire set keys = none ↔ ∀ r ∈ keys, r ∈ set := by
  induction keys with
  | nil => simp [rangeRequire]
  | cons r rs ih =>
    by_cases h : r ∈ set
    · simp [rangeRequire, h, ih]
    · simp [rangeRequire, h, failf]

theorem rangeRequire_eq_some (set keys : List String) (err : String) :
    rangeRequire set keys = some err ↔
      ∃ r, keys.find? (fun k => !(decide (k ∈ set))) = some r
        ∧ err = "required but not set: " ++ r := by
  induction keys with
  | nil => simp [rangeRequire]
  | cons r rs ih =>
    by_cases h : r ∈ set
    · simp [rangeRequire, h, ih]
    · simp [rangeRequire, h, failf, eq_comm]

theorem Parse_of_error (p : Positional) (host : Host) (keys args : List String) (err : String)
    (h : host (interleave p args).2 = .error err) :
    (Parse p host keys args).2 = some err := by
  simp only [Parse]
  rw [h]

theorem Parse_of_ok (p : Positional) (host : Host) (keys args visited : List String)
    (h : host (interleave p args).2 = .ok visited) :
    (Parse p host keys args).2 = rangeRequire (visited.foldl mapSet []) keys := by
  simp only [Parse]
  rw [h]
  rfl

theorem mem_visited_set (visited : List String) (x : String) :
    x ∈ visited.foldl mapSet [] ↔ x ∈ visited := by
  rw [mem_foldl_mapSet]; simp

/-- C3: a host error is returned unchanged; after a successful host parse,
`Parse` returns nil exactly when the clean name of every slot that is not
optional is among the flags that were set, and an error it returns then is
`"required but not set: "` followed by the name of such a slot that was not
set. -/
theorem Parse_missing_required (p : Positional) (host : Host) (keys args : List String)
    (hkeys : keys.Perm (ensure p).require) :
    (∀ err, host (interleave p args).2 = .error err → (Parse p host keys args).2 = some err)
      ∧ (∀ visited, host (interleave p args).2 = .ok visited →
          ((Parse p host keys args).2 = none ↔
              ∀ i, i < (ensure p).order.length → isOptional (ensure p) i = false →
                clean (ensure p) i ∈ visited)
            ∧ (∀ err, (Parse p host keys args).2 = some err →
                ∃ i, i < (ensure p).order.length ∧ isOptional (ensure p) i = false
                  ∧ clean (ensure p) i ∉ visited
                  ∧ err = "required but not set: " ++ clean (ensure p) i)) := by
  refine ⟨fun err h => Parse_of_error p host keys args err h, fun visited h => ⟨?_, ?_⟩⟩
  · rw [Parse_of_ok p host keys args visited h, rangeRequire_eq_none]
    constructor
    · intro hall i hi hopt
      have hmem : clean (ensure p) i ∈ keys :=
        hkeys.mem_iff.mpr ((mem_require_ensure p _).mpr ⟨i, hi, hopt, rfl⟩)
      exact (mem_visited_set visited _).mp (hall _ hmem)
    · intro hall r hr
      obtain ⟨i, hi, hopt, rfl⟩ := (mem_require_ensure p r).mp (hkeys.mem_iff.mp hr)
      exact (mem_visited_set visited _).mpr (hall i hi hopt)
  · intro err herr
    rw [Parse_of_ok p host keys args visited h, rangeRequire_eq_some] at herr
    obtain ⟨r, hfind, rfl⟩ := herr
    have hr : r ∈ keys := List.mem_of_find?_eq_some hfind
    have hnot : r ∉ visited := by
      have := List.find?_some hfind
      simpa [mem_visited_set] using this
    obtain ⟨i, hi, hopt, rfl⟩ := (mem_require_ensure p r).mp (hkeys.mem_iff.mp hr)
    exact ⟨i, hi, hopt, hnot, rfl⟩

theorem Parse_missing_required_witness :
    (Parse (((Pos.Var "a").Var "b").Order "a [b]") (flagParse ["a", "b"]) ["a"] ["x"]).2 = none
      ∧ (Parse (((Pos.Var "a").Var "b").Order "a [b]") (flagParse ["a", "b"]) ["a"]
          ["x", "y"]).2 = none
      ∧ (Parse (((Pos.Var "a").Var "b").Order "a [b]") (flagParse ["a", "b"]) ["a"] []).2
          = some "required but not set: a"
      ∧ (Parse ((Pos.Var "a").Order "a [b]") (flagParse ["a"]) ["a"] ["x", "y"]).2
          = some "flag provided but not defined: -b" := by
  refine ⟨?_, ?_, ?_, ?_⟩
  · exact ((Parse_missing_required (((Pos.Var "a").Var "b").Order "a [b]")
      (flagParse ["a", "b"]) ["a"] ["x"] (by decide)).2 ["a"] rfl).1.mpr (by decide)
  · exact ((Parse_missing_required (((Pos.Var "a").Var "b").Order "a [b]")
      (flagParse ["a", "b"]) ["a"] ["x", "y"] (by decide)).2 ["a", "b"] rfl).1.mpr
      (by decide)
  · have h := ((Parse_missing_required (((Pos.Var "a").Var "b").Order "a [b]")
      (flagParse ["a", "b"]) ["a"] [] (by decide)).2 [] rfl)
    cases hp : (Parse (((Pos.Var "a").Var "b").Order "a [b]") (flagParse ["a", "b"]) ["a"] []).2
      with
    | none => exact absurd (h.1.mp hp 0 (by decide) (by decide)) (by decide)
    | some err =>
      obtain ⟨i, hi, hopt, _, rfl⟩ := h.2 err hp
      have hi2 : i < 2 := hi
      interval_cases i
      · rfl
      · exact absurd hopt (by decide)
  · exact (Parse_missing_required ((Pos.Var "a").Order "a [b]") (flagParse ["a"]) ["a"]
      ["x", "y"] (by decide)).1 _ rfl

/-- C4, the counterexample: template `a b`, no arguments, both slots missing.  On
a run on which the range statement yields the key `b` first, `Parse` reports
`b`, though slot 0, named `a`, is required and not set; on a run that yields `a`
first it reports `a`. -/
theorem Parse_first_missing_counterexample :
    ["b", "a"].Perm (ensure (((Pos.Var "a").Var "b").Order "a b")).require
      ∧ (Parse (((Pos.Var "a").Var "b").Order "a b") (flagParse ["a", "b"]) ["b", "a"] []).2
          = some "required but not set: b"
      ∧ isOptional (ensure (((Pos.Var "a").Var "b").Order "a b")) 0 = false
      ∧ clean (ensure (((Pos.Var "a").Var "b").Order "a b")) 0 = "a"
      ∧ ["a", "b"].Perm (ensure (((Pos.Var "a").Var "b").Order "a b")).require
      ∧ (Parse (((Pos.Var "a").Var "b").Order "a b") (flagParse ["a", "b"]) ["a", "b"] []).2
          = some "required but not set: a" := by
  decide

/-- C4, as amended: when a required slot is missing after a successful host
parse, `Parse` reports the first missing name in the order in which the range
statement yields the keys of `p.require`; that name belongs to a required slot
that was not set, and it is the same for every such order when only one required
name is missing. -/
theorem Parse_reports_a_missing_slot (p : Positional) (host : Host)
    (keys args visited : List String) (i : Nat)
    (hkeys : keys.Perm (ensure p).require)
    (hok : host (interleave p args).2 = .ok visited)
    (hi : i < (ensure p).order.length) (hopt : isOptional (ensure p) i = false)
    (hmiss : clean (ensure p) i ∉ visited) :
    ∃ r, (Parse p host keys args).2 = some ("required but not set: " ++ r)
      ∧ keys.find? (fun k => !(decide (k ∈ visited))) = some r
      ∧ (∃ k, k < (ensure p).order.length ∧ isOptional (ensure p) k = false
          ∧ clean (ensure p) k = r)
      ∧ r ∉ visited
      ∧ ((∀ k, k < (ensure p).order.length → isOptional (ensure p) k = false →
            clean (ensure p) k ∉ visited → clean (ensure p) k = clean (ensure p) i) →
          r = clean (ensure p) i) := by
  have hmem : clean (ensure p) i ∈ keys :=
    hkeys.mem_iff.mpr ((mem_require_ensure p _).mpr ⟨i, hi, hopt, rfl⟩)
  cases hfind : keys.find? (fun k => !(decide (k ∈ visited))) with
  | none =>
    rw [List.find?_eq_none] at hfind
    have := hfind _ hmem
    simp [hmiss] at this
  | some r =>
    have hr : r ∈ keys := List.mem_of_find?_eq_some hfind
    have hnot : r ∉ visited := by
      have := List.find?_some hfind
      simpa using this
    obtain ⟨k, hk, hkopt, hkr⟩ := (mem_require_ensure p r).mp (hkeys.mem_iff.mp hr)
    refine ⟨r, ?_, rfl, ⟨k, hk, hkopt, hkr⟩, hnot, fun huniq => ?_⟩
    · rw [Parse_of_ok p host keys args visited hok, rangeRequire_eq_some]
      refine ⟨r, ?_, rfl⟩
      rw [← hfind]
      congr 1
      funext x
      simp [mem_visited_set]
    · rw [← hkr]
      exact huniq k hk hkopt (by rw [hkr]; exact hnot)

theorem Parse_reports_a_missing_slot_witness :
    ∃ r, (Parse (((Pos.Var "a").Var "b").Order "a b") (flagParse ["a", "b"]) ["b", "a"]
          ["x"]).2 = some ("required but not set: " ++ r)
      ∧ ["b", "a"].find? (fun k => !(decide (k ∈ ["a"]))) = some r
      ∧ (∃ k, k < (ensure (((Pos.Var "a").Var "b").Order "a b")).order.length
          ∧ isOptional (ensure (((Pos.Var "a").Var "b").Order "a b")) k = false
          ∧ clean (ensure (((Pos.Var "a").Var "b").Order "a b")) k = r)
      ∧ r ∉ ["a"]
      ∧ ((∀ k, k < (ensure (((Pos.Var "a").Var "b").Order "a b")).order.length →
            isOptional (ensure (((Pos.Var "a").Var "b").Order "a b")) k = false →
            clean (ensure (((Pos.Var "a").Var "b").Order "a b")) k ∉ ["a"] →
            clean (ensure (((Pos.Var "a").Var "b").Order "a b")) k
              = clean (ensure (((Pos.Var "a").Var "b").Order "a b")) 1) →
          r = clean (ensure (((Pos.Var "a").Var "b").Order "a b")) 1) :=
  Parse_reports_a_missing_slot (((Pos.Var "a").Var "b").Order "a b") (flagParse ["a", "b"])
    ["b", "a"] ["x"] ["a"] 1 (by decide) rfl (by decide) (by decide) (by decide)

theorem isRepeating_of_plain (p : Positional) (i : Nat) (name : String)
    (hname : p.order[i]? = some name)
    (h1 : HasSuffix name "]" = false) (h2 : HasSuffix name "..." = false) :
    isOptional p i = false ∧ isRepeating p i = false := by
  have hi : i < p.order.length := (List.getElem?_eq_some_iff.mp hname).1
  have hget : p.order.getD i "" = name := by
    simp [List.getD_eq_getElem?_getD, hname]
  have hnot : ¬ i ≥ p.order.length := by omega
  constructor
  · simp only [isOptional, hnot, if_false, hget, h1, Bool.and_false]
  · simp only [isRepeating, hnot, if_false, hget, TrimSuffix, h1, Bool.false_eq_true, h2]

/-- C5, the counterexample: with `foo` registered before `bar` and no template,
the slots are `bar`, `foo`, and two tokens go to `bar` and then to `foo`. -/
theorem ensure_fallback_counterexample :
    ((Pos.Var "foo").Var "bar").flags = ["foo", "bar"]
      ∧ (ensure ((Pos.Var "foo").Var "bar")).order = ["bar", "foo"]
      ∧ (interleave ((Pos.Var "foo").Var "bar") ["t0", "t1"]).2 = ["-bar", "t0", "-foo", "t1"] := by
  decide

/-- C5, as amended: without a template the slots built by `ensure` are the
names of the registered flags in lexicographical order, the order of `VisitAll`;
a slot whose flag name ends neither in `]` nor in `...` is required and not
repeating, and if the name does not start with `[` either, it is the slot name
and a key of `p.require`. -/
theorem ensure_fallback_sorted (p : Positional) (h : p.order = []) :
    (ensure p).order.Perm p.flags
      ∧ (ensure p).order.Sorted nameLE
      ∧ (∀ i name, (ensure p).order[i]? = some name →
          HasSuffix name "]" = false → HasSuffix name "..." = false →
          isOptional (ensure p) i = false ∧ isRepeating (ensure p) i = false
            ∧ (HasPrefix name "[" = false →
                clean (ensure p) i = name ∧ name ∈ (ensure p).require)) := by
  have horder : (ensure p).order = VisitAll p.flags := by
    simp [ensure, h]
  refine ⟨?_, ?_, ?_⟩
  · rw [horder]; exact List.perm_insertionSort nameLE p.flags
  · rw [horder]; exact List.sorted_insertionSort nameLE p.flags
  · intro i name hname h1 h2
    obtain ⟨ho, hr⟩ := isRepeating_of_plain (ensure p) i name hname h1 h2
    refine ⟨ho, hr, fun h3 => ?_⟩
    have hi : i < (ensure p).order.length := (List.getElem?_eq_some_iff.mp hname).1
    have hget : (ensure p).order.getD i "" = name := by
      simp [List.getD_eq_getElem?_getD, hname]
    have hnot : ¬ i ≥ (ensure p).order.length := by omega
    have hclean : clean (ensure p) i = name := by
      simp only [clean, hnot, if_false, hget, TrimPrefix, h3, TrimSuffix, h1, h2,
        Bool.false_eq_true]
    exact ⟨hclean, (mem_require_ensure p name).mpr ⟨i, hi, ho, hclean⟩⟩

theorem ensure_fallback_sorted_witness :
    (ensure ((Pos.Var "foo").Var "bar")).order.Perm ["foo", "bar"]
      ∧ (ensure ((Pos.Var "foo").Var "bar")).order.Sorted nameLE
      ∧ (isOptional (ensure ((Pos.Var "foo").Var "bar")) 1 = false
          ∧ isRepeating (ensure ((Pos.Var "foo").Var "bar")) 1 = false
          ∧ clean (ensure ((Pos.Var "foo").Var "bar")) 1 = "foo"
          ∧ "foo" ∈ (ensure ((Pos.Var "foo").Var "bar")).require)
      ∧ (isOptional (ensure ((Pos.Var "foo").Var "bar")) 0 = false
          ∧ isRepeating (ensure ((Pos.Var "foo").Var "bar")) 0 = false
          ∧ clean (ensure ((Pos.Var "foo").Var "bar")) 0 = "bar"
          ∧ "bar" ∈ (ensure ((Pos.Var "foo").Var "bar")).require) := by
  have h := ensure_fallback_sorted ((Pos.Var "foo").Var "bar") (by decide)
  have h1 := h.2.2 1 "foo" (by decide) (by decide) (by decide)
  have h0 := h.2.2 0 "bar" (by decide) (by decide) (by decide)
  exact ⟨h.1, h.2.1, ⟨h1.1, h1.2.1, h1.2.2 (by decide)⟩, ⟨h0.1, h0.2.1, h0.2.2 (by decide)⟩⟩

/-! ### Flag values -/

theorem setAll_buffer (vs : List String) :
    ∀ b : bufferValue,
      (setAll bufferValue.Set b vs).1.Buffer
          = List.foldl (fun r s => r ++ s) b.Buffer (vs.map (fun v => v ++ "\n"))
        ∧ (∀ e ∈ (setAll bufferValue.Set b vs).2, e = none)
        ∧ (setAll bufferValue.Set b vs).2.length = vs.length := by
  induction vs with
  | nil => intro b; simp [setAll]
  | cons v vs ih =>
    intro b
    obtain ⟨h1, h2, h3⟩ := ih (bufferValue.Set b v).1
    refine ⟨?_, ?_, by simp only [setAll, List.length_cons, h3]⟩
    · simp only [setAll, List.map_cons, List.foldl_cons]
      rw [h1]
      rfl
    · intro e he
      simp only [setAll, List.mem_cons] at he
      rcases he with rfl | he
      · rfl
      · exact h2 e he

/-- C9: after the values `vs` were set in order on a `Buffer` flag, the buffer
holds each value followed by a newline, in order, and every `Set` returned
nil. -/
theorem Buffer_newline_after_each_value (vs : List String) :
    (setAll bufferValue.Set newBuffer vs).1.Buffer = String.join (vs.map (fun v => v ++ "\n"))
      ∧ (∀ e ∈ (setAll bufferValue.Set newBuffer vs).2, e = none)
      ∧ ((setAll bufferValue.Set newBuffer vs).2.length = vs.length)
      ∧ (setAll bufferValue.Set newBuffer []).1.Buffer = ""
      ∧ (setAll bufferValue.Set newBuffer [""]).1.Buffer = "\n"
      ∧ (setAll bufferValue.Set newBuffer ["foo", "baz"]).1.Buffer = "foo\nbaz\n" := by
  obtain ⟨h1, h2, h3⟩ := setAll_buffer vs newBuffer
  exact ⟨h1, h2, h3, by decide, by decide, by decide⟩

theorem setAll_strings (vs : List String) :
    ∀ l : List String,
      (setAll stringsValue.Set { p := some l } vs).1.p = some (l ++ vs)
        ∧ (∀ e ∈ (setAll stringsValue.Set { p := some l } vs).2, e = none)
        ∧ (setAll stringsValue.Set { p := some l } vs).2.length = vs.length := by
  induction vs with
  | nil => intro l; simp [setAll]
  | cons v vs ih =>
    intro l
    obtain ⟨h1, h2, h3⟩ := ih (l ++ [v])
    have hset : (stringsValue.Set { p := some l } v).1 = { p := some (l ++ [v]) } := rfl
    refine ⟨?_, ?_, ?_⟩
    · simp only [setAll, hset, h1, List.append_assoc, List.singleton_append]
    · intro e he
      simp only [setAll, List.mem_cons, hset] at he
      rcases he with rfl | he
      · rfl
      · exact h2 e he
    · simp only [setAll, hset, List.length_cons, h3]

/-- C10: after the values `vs` were set in order on a `Strings` flag, the slice
is `vs` (the empty slice, not nil, when nothing was set); each `Set` appends its
argument to the slice as it was and returns nil. -/
theorem Strings_accumulates_in_order (vs : List String) :
    (setAll stringsValue.Set newStrings vs).1.p = some vs
      ∧ (∀ e ∈ (setAll stringsValue.Set newStrings vs).2, e = none)
      ∧ (setAll stringsValue.Set newStrings vs).2.length = vs.length
      ∧ (setAll stringsValue.Set newStrings []).1.p = some []
      ∧ (∀ (l : List String) (arg : String),
          stringsValue.Set { p := some l } arg = ({ p := some (l ++ [arg]) }, none)) := by
  obtain ⟨h1, h2, h3⟩ := setAll_strings vs []
  refine ⟨?_, h2, h3, rfl, fun _ _ => rfl⟩
  simpa using h1

/-- C8: `r := InFile("in", "")` on an empty flag set, then the flag set to `-`:
`Set` returns nil and the opened reader is stored in the flag's own value, at
address 1, while `r`, at address 0, still holds nil, so `Read` on `r` returns
`0, io.EOF` and `Close` on `r` closes nothing.  The same with a file that
opens. -/
theorem InFile_result_never_set :
    (FlagSet.InFile { heap := [], formal := [] } "in").2 = 0
      ∧ ((FlagSet.InFile { heap := [], formal := [] } "in").1.setFlag (fun _ => none)
          "in" "-").2 = none
      ∧ InFileValue.Read ((FlagSet.InFile { heap := [], formal := [] } "in").1.setFlag
          (fun _ => none) "in" "-").1 0 = Delegation.none
      ∧ InFileValue.Close ((FlagSet.InFile { heap := [], formal := [] } "in").1.setFlag
          (fun _ => none) "in" "-").1 0 = Delegation.none
      ∧ InFileValue.Read ((FlagSet.InFile { heap := [], formal := [] } "in").1.setFlag
          (fun _ => none) "in" "-").1 1 = Delegation.to ReadCloser.stdin
      ∧ InFileValue.Read ((FlagSet.InFile { heap := [], formal := [] } "in").1.setFlag
          (fun _ => none) "in" "data.txt").1 0 = Delegation.none
      ∧ InFileValue.Read ((FlagSet.InFile { heap := [], formal := [] } "in").1.setFlag
          (fun _ => none) "in" "data.txt").1 1 = Delegation.to (ReadCloser.file "data.txt") := by
  decide

end Xflag
